import Mathlib

/-!
Verification of the territory_planner backend against its specification.

The definitions below are shallow embeddings of the Python functions in
`territory_tool/backend` (`metrics.py`, `optimizer.py`, `data_loader.py`):

* floats are modelled as rationals (`ℚ`), with `none : Option ℚ` standing for
  the IEEE `+∞` that `max_min_ratio` can return;
* Python dicts are modelled as association lists in insertion order,
  Python sets as lists of distinct elements;
* the adjacency dict is modelled as a total function `String → List String`
  (`dict.get(key, set())` semantics);
* Python `str.strip` / `str.upper` / string comparison are modelled on the
  underlying character lists (code-point order, as in CPython).

All definitions are executable.
-/

/-! ## Basic string model (Python `strip`, `upper`, lexicographic comparison) -/

/-- Code-point comparison of characters, as CPython compares strings. -/
def charLtB (a b : Char) : Bool := a.toNat < b.toNat

/-- Lexicographic strict order on character lists (Python string `<`). -/
def charsLtB : List Char → List Char → Bool
  | [], [] => false
  | [], _ :: _ => true
  | _ :: _, [] => false
  | a :: as, b :: bs =>
      if charLtB a b then true
      else if charLtB b a then false
      else charsLtB as bs

/-- Python string `<` (lexicographic by code point). -/
def strLtB (a b : String) : Bool := charsLtB a.data b.data

/-- Python string `<=` (lexicographic by code point). -/
def strLeB (a b : String) : Bool := !(strLtB b a)

/-- Python `str.strip()` on a character list: drop leading and trailing
whitespace. -/
def stripChars (l : List Char) : List Char :=
  ((l.dropWhile Char.isWhitespace).reverse.dropWhile Char.isWhitespace).reverse

/-- Python `str.strip()`. -/
def pyStrip (s : String) : String := ⟨stripChars s.data⟩

/-- Python `str.upper()` (ASCII uppercasing, as used on state codes). -/
def pyUpper (s : String) : String := ⟨s.data.map Char.toUpper⟩

/-! ## `metrics.py`: fairness metrics -/

/-- Embedding of `np.abs` on a rational. -/
def npAbs (q : ℚ) : ℚ := if q < 0 then -q else q

/-- The double sum `np.abs(x[:, None] - x[None, :]).sum()` from `gini`:
sum of absolute differences over all ordered pairs (self-pairs included). -/
def giniDiffSum (x : List ℚ) : ℚ :=
  (x.map (fun a => (x.map (fun b => npAbs (a - b))).sum)).sum

/-- Embedding of `metrics.gini` (metrics.py lines 20-47): keep the
non-negative values; return `0` if none remain or their mean is zero;
otherwise the pairwise absolute-difference sum divided by `2·n²·mean`. -/
def gini (values : List ℚ) : ℚ :=
  let x := values.filter (fun v => decide (0 ≤ v))
  if x.length = 0 then 0
  else
    let mean := x.sum / (x.length : ℚ)
    if mean = 0 then 0
    else giniDiffSum x / (2 * (x.length : ℚ) * (x.length : ℚ) * mean)

/-- Embedding of `metrics.max_min_ratio` (metrics.py lines 97-119): keep the
strictly positive values (`x[x > 0]`); `some 1` if none remain; the source then
tests `min_val == 0` and would return `float("inf")` (modelled as `none`) when
the minimum is zero and a positive maximum exists; otherwise `max/min`. -/
def max_min_ratio (values : List ℚ) : Option ℚ :=
  let x := values.filter (fun v => decide (0 < v))
  match x with
  | [] => some 1
  | h :: t =>
    let minVal := t.foldl min h
    let maxVal := t.foldl max h
    if minVal = 0 then (if 0 < maxVal then none else some 1)
    else some (maxVal / minVal)

/-! ## `data_loader.py`: derived Combined ICP score -/

/-- The `div_count` column of `DataStore._compute_derived_metrics`
(data_loader.py line 459): number of divisions with a strictly positive
ICP score. -/
def div_count (hw cre cpe : ℚ) : ℕ :=
  (if 0 < hw then 1 else 0) + (if 0 < cre then 1 else 0) + (if 0 < cpe then 1 else 0)

/-- The `Combined_ICP_Score` column of `DataStore._compute_derived_metrics`
(data_loader.py lines 462-466): `(hw + cre + cpe) / div_count` when
`div_count > 0`, else `0.0`. -/
def Combined_ICP_Score (hw cre cpe : ℚ) : ℚ :=
  if 0 < div_count hw cre cpe then (hw + cre + cpe) / (div_count hw cre cpe : ℚ) else 0

/-! ## `optimizer.py`: contiguity primitives -/

/-- `ISLAND_STATES` from optimizer.py line 100 (also re-created inline as
`island_states` in `is_territory_contiguous` and `can_add_to_territory`). -/
def ISLAND_STATES : List String := ["AK", "HI", "PR", "GU", "VI", "AS", "MP"]

/-- The BFS loop of `is_territory_contiguous` (optimizer.py lines 134-147):
pop the head of the queue, add its not-yet-visited neighbors that lie in
`allowed` (the mainland subset) to both the visited list and the queue. -/
def bfsAux (adj : String → List String) (allowed : List String) :
    List String → List String → List String
  | visited, [] => visited
  | visited, current :: queue =>
      let newNbrs := ((adj current).dedup).filter
        (fun n => decide (n ∈ allowed ∧ n ∉ visited))
      bfsAux adj allowed (visited ++ newNbrs) (queue ++ newNbrs)
termination_by visited queue =>
  ((allowed.filter (fun a => decide (a ∉ visited))).length, queue.length)
decreasing_by
  rcases hne : ((adj current).dedup).filter (fun n => decide (n ∈ allowed ∧ n ∉ visited))
    with _ | ⟨b, nbrs⟩
  · simp only [List.append_nil]
    exact Prod.Lex.right _ (by simp)
  · apply Prod.Lex.left
    have hsub : List.Sublist
        (allowed.filter (fun a => decide (a ∉ visited ++ b :: nbrs)))
        (allowed.filter (fun a => decide (a ∉ visited))) := by
      apply List.monotone_filter_right
      intro a ha
      have h1 : a ∉ visited ++ b :: nbrs := of_decide_eq_true ha
      exact decide_eq_true (fun hv => h1 (List.mem_append_left _ hv))
    have hbmem : b ∈ ((adj current).dedup).filter
        (fun n => decide (n ∈ allowed ∧ n ∉ visited)) := by
      rw [hne]
      exact List.mem_cons_self b nbrs
    have hball : b ∈ allowed ∧ b ∉ visited := of_decide_eq_true (List.mem_filter.mp hbmem).2
    have hmem1 : b ∈ allowed.filter (fun a => decide (a ∉ visited)) :=
      List.mem_filter.mpr ⟨hball.1, decide_eq_true hball.2⟩
    have hmem2 : b ∉ allowed.filter (fun a => decide (a ∉ visited ++ b :: nbrs)) := by
      intro hmem
      exact (of_decide_eq_true (List.mem_filter.mp hmem).2)
        (List.mem_append_right _ (List.mem_cons_self b nbrs))
    rcases Nat.lt_or_ge (allowed.filter (fun a => decide (a ∉ visited ++ b :: nbrs))).length
        (allowed.filter (fun a => decide (a ∉ visited))).length with hlt | hge
    · exact hlt
    · have heq := hsub.eq_of_length (Nat.le_antisymm hsub.length_le hge)
      rw [heq] at hmem2
      exact absurd hmem1 hmem2

/-- One step between adjacent units, both lying in the `allowed` set:
the edges the BFS of `is_territory_contiguous` may traverse. -/
def AdjStep (adj : String → List String) (allowed : List String) (a b : String) : Prop :=
  a ∈ allowed ∧ b ∈ allowed ∧ b ∈ adj a

/-- Graph reachability along `AdjStep` edges: the declarative meaning of the
BFS in `is_territory_contiguous`. -/
def ReachIn (adj : String → List String) (allowed : List String) (a b : String) : Prop :=
  Relation.ReflTransGen (AdjStep adj allowed) a b

/-- Embedding of `optimizer.is_territory_contiguous` (optimizer.py lines
103-147).  A territory of at most one unit is contiguous; an islands-only
territory is contiguous; otherwise BFS over the mainland members only,
starting from the first mainland member, and compare visited count with the
mainland count. -/
def is_territory_contiguous (territory_states : List String)
    (adj : String → List String) : Bool :=
  if territory_states.length ≤ 1 then true
  else
    let mainland_states := territory_states.filter (fun s => decide (s ∉ ISLAND_STATES))
    match mainland_states with
    | [] => true
    | start :: rest =>
        let visited := bfsAux adj (start :: rest) [start] [start]
        visited.length == (start :: rest).length

/-- Embedding of `optimizer.can_add_to_territory` (optimizer.py lines
150-174): an empty territory admits anything; an island candidate is only
admitted when the territory is empty; a territory containing an island admits
nothing further; otherwise the mainland candidate needs a neighbor already in
the territory. -/
def can_add_to_territory (state : String) (territory_states : List String)
    (adj : String → List String) : Bool :=
  if territory_states.isEmpty then true
  else if decide (state ∈ ISLAND_STATES) then territory_states.length == 0
  else if territory_states.any (fun t => decide (t ∈ ISLAND_STATES)) then false
  else (adj state).any (fun n => decide (n ∈ territory_states))

/-! ## `metrics.py`: the unit partition computed by `compute_scenario_stats` -/

/-- The territory labels `[f"T{i+1}" for i in range(k)]` used throughout the
backend (`T1 .. Tk`). -/
def territoryIds (k : ℕ) : List String :=
  (List.range k).map (fun i => "T" ++ Nat.repr (i + 1))

/-- The grouping loop of `compute_scenario_stats` (metrics.py lines 416-422):
for each `(unit, territory)` entry whose unit is a known aggregate key, append
the unit to that territory's member list (`territory_units`) and record
the unit as assigned (`assigned_units`). -/
def groupAssignments (assignments : List (String × String)) (aggKeys : List String) :
    (String → List String) × List String :=
  assignments.foldl
    (fun acc p =>
      if p.1 ∈ aggKeys then
        (fun tid => if tid = p.2 then acc.1 tid ++ [p.1] else acc.1 tid, acc.2 ++ [p.1])
      else acc)
    (fun _ => [], [])

/-- The member-unit list `territory_units.get(tid, [])` that
`compute_scenario_stats` (metrics.py line 436) passes to
`compute_territory_stats` for a territory label. -/
def scenarioMemberUnits (assignments : List (String × String)) (aggKeys : List String)
    (tid : String) : List String :=
  (groupAssignments assignments aggKeys).1 tid

/-- The `unassigned_units` of `compute_scenario_stats` (metrics.py lines
425-426 and 468): the aggregate keys minus the assigned units, sorted
ascending. -/
def scenarioUnassigned (assignments : List (String × String)) (aggKeys : List String) :
    List String :=
  List.insertionSort (fun a b : String => strLeB a b = true)
    (aggKeys.filter (fun u => decide (u ∉ (groupAssignments assignments aggKeys).2)))

/-! ## `optimizer.py`: greedy primary-balanced optimizer -/

/-- The mutable state of `primary_balanced` (optimizer.py lines 605-607):
the assignment dict in insertion order, `load_primary`, `territory_states`
(member lists), and the `contiguity_failures` list. -/
structure PBState where
  assignments : List (String × String)
  load : String → ℚ
  members : String → List String
  failures : List String

/-- One assignment `unit → tid`: the three update lines of `primary_balanced`
(optimizer.py 615-617 for locks, 652-654 for the greedy loop).  The load
added is `unit_values[unit]["primary"]` (0 for units outside the dict; both
call sites only pass known units). -/
def pbAssign (unitValues : List (String × ℚ)) (st : PBState) (unit tid : String) : PBState :=
  { assignments := st.assignments ++ [(unit, tid)]
    load := fun t => if t = tid then st.load t + ((unitValues.lookup unit).getD 0) else st.load t
    members := fun t => if t = tid then st.members t ++ [unit] else st.members t
    failures := st.failures }

/-- Python's `min(territory_ids, key=lambda t: load_primary[t])` (optimizer.py
line 650): the first element attaining the minimal load; `none` only for an
empty label list (where the source would raise from `min([])`). -/
def firstMinBy (load : String → ℚ) : List String → Option String
  | [] => none
  | t :: ts => some (ts.foldl (fun best u => if load u < load best then u else best) t)

/-- The admissible-territory scan of `primary_balanced` (optimizer.py lines
636-644): walk the labels in order, skip those `canJoin` rejects, and keep the
first strictly-smallest load. -/
def pickBest (tids : List String) (canJoin : String → Bool) (load : String → ℚ) :
    Option String :=
  tids.foldl
    (fun best tid =>
      if canJoin tid then
        match best with
        | none => some tid
        | some b => if load tid < load b then some tid else best
      else best)
    none

/-- One iteration of the greedy loop of `primary_balanced` (optimizer.py lines
631-654): find the least-loaded territory that admits the unit (contiguity
checked only when required and the territory is non-empty); on failure record
the unit (when contiguity was required) and fall back to the globally
least-loaded territory. -/
def pbGreedyStep (unitValues : List (String × ℚ)) (tids : List String)
    (requireContiguity : Bool) (adj : String → List String)
    (st : PBState) (unit : String) : PBState :=
  let canJoin := fun tid =>
    if requireContiguity && !(st.members tid).isEmpty then
      can_add_to_territory unit (st.members tid) adj
    else true
  match pickBest tids canJoin st.load with
  | some tid => pbAssign unitValues st unit tid
  | none =>
      let st1 := if requireContiguity then
          { st with failures := st.failures ++ [unit] } else st
      match firstMinBy st.load tids with
      | some tid => pbAssign unitValues st1 unit tid
      | none => st1

/-- The lock-application loop of `primary_balanced` (optimizer.py lines
609-617): apply each lock whose unit is known and whose label is a valid
territory id, starting from the empty state. -/
def pbLockFold (unitValues : List (String × ℚ)) (k : ℕ)
    (locked : List (String × String)) : PBState :=
  locked.foldl
    (fun st p =>
      if (unitValues.lookup p.1).isSome = true ∧ p.2 ∈ territoryIds k then
        pbAssign unitValues st p.1 p.2
      else st)
    { assignments := [], load := fun _ => 0, members := fun _ => [], failures := [] }

/-- The `remaining_units` of `primary_balanced` (optimizer.py lines 620-623):
unit keys not assigned by the locks, in dict order. -/
def pbRemaining (unitValues : List (String × ℚ)) (k : ℕ)
    (locked : List (String × String)) : List String :=
  (unitValues.map Prod.fst).filter
    (fun u => decide ((pbLockFold unitValues k locked).assignments.lookup u = none))

/-- The descending stable sort of `remaining_units` by primary value
(optimizer.py lines 624-627); Python's `list.sort` is stable, as is
`insertionSort`. -/
def pbSorted (unitValues : List (String × ℚ)) (k : ℕ)
    (locked : List (String × String)) : List String :=
  List.insertionSort
    (fun a b : String => ((unitValues.lookup b).getD 0) ≤ ((unitValues.lookup a).getD 0))
    (pbRemaining unitValues k locked)

/-- Embedding of `optimizer.primary_balanced` (optimizer.py lines 579-662):
apply valid locks, sort the remaining units by primary value descending,
run the greedy loop, and fail with the collected unit ids when contiguity was
required and any unit could not be admitted anywhere without breaking it. -/
def primary_balanced (unitValues : List (String × ℚ)) (k : ℕ)
    (locked : List (String × String)) (requireContiguity : Bool)
    (adj : String → List String) : Except (List String) (List (String × String)) :=
  let stF := (pbSorted unitValues k locked).foldl
    (pbGreedyStep unitValues (territoryIds k) requireContiguity adj)
    (pbLockFold unitValues k locked)
  if requireContiguity = true ∧ stF.failures ≠ [] then Except.error stF.failures
  else Except.ok stF.assignments

/-- The adjacency `{"A": {"B"}, "B": {"A"}}` of
`test_primary_balanced_raises_when_contiguity_impossible`
(optimizer_test.py lines 43-47). -/
def test_adjacency : String → List String :=
  fun s => if s = "A" then ["B"] else if s = "B" then ["A"] else []

/-! ## `data_loader.py`: ZIP → state mapping -/

/-- Lexicographic order on `(zip, state)` pairs: the ascending key order in
which pandas `groupby(["ShippingZip", "ShippingState"]).size()` enumerates
the distinct pairs. -/
def pairLeB (p q : String × String) : Bool :=
  strLtB p.1 q.1 || (p.1 == q.1 && strLeB p.2 q.2)

/-- One step of the dict-building loop of `get_zip_to_state_mapping`
(data_loader.py lines 700-705): strip the ZIP, strip-and-uppercase the state,
skip blank values, and let the first pair seen for a ZIP win. -/
def zipFoldStep (acc : List (String × String)) (p : String × String) :
    List (String × String) :=
  let z := pyStrip p.1
  let s := pyUpper (pyStrip p.2)
  if z = "" ∨ s = "" then acc
  else if (acc.lookup z).isSome then acc
  else acc ++ [(z, s)]

/-- Embedding of `DataStore.get_zip_to_state_mapping` (data_loader.py lines
687-707): enumerate the distinct `(zip, state)` pairs of the rows in
ascending key order (pandas `groupby` semantics) and keep, for each ZIP, the
state of the first pair encountered. -/
def get_zip_to_state_mapping (rows : List (String × String)) :
    List (String × String) :=
  let pairs := List.insertionSort (fun p q => pairLeB p q = true) rows.dedup
  pairs.foldl zipFoldStep []

/-! ## Helper lemmas -/

lemma charsLtB_cons (a b : Char) (as bs : List Char) :
    charsLtB (a :: as) (b :: bs) =
      if a.toNat < b.toNat then true
      else if b.toNat < a.toNat then false
      else charsLtB as bs := by
  rw [charsLtB]
  simp only [charLtB, decide_eq_true_eq]

lemma charsLtB_irrefl (l : List Char) : charsLtB l l = false := by
  induction l with
  | nil => rfl
  | cons a l ih =>
    rw [charsLtB_cons, if_neg (lt_irrefl _), if_neg (lt_irrefl _)]
    exact ih

lemma charsLtB_trans (a : List Char) : ∀ b c : List Char,
    charsLtB a b = true → charsLtB b c = true → charsLtB a c = true := by
  induction a with
  | nil =>
    intro b c hab hbc
    cases b with
    | nil => cases hab
    | cons y ys =>
      cases c with
      | nil =>
        rw [show charsLtB (y :: ys) [] = false from rfl] at hbc
        cases hbc
      | cons z zs => rfl
  | cons x xs ih =>
    intro b c hab hbc
    cases b with
    | nil =>
      rw [show charsLtB (x :: xs) [] = false from rfl] at hab
      cases hab
    | cons y ys =>
      cases c with
      | nil =>
        rw [show charsLtB (y :: ys) [] = false from rfl] at hbc
        cases hbc
      | cons z zs =>
        rw [charsLtB_cons] at hab hbc ⊢
        by_cases h1 : x.toNat < y.toNat
        · by_cases h2 : y.toNat < z.toNat
          · rw [if_pos (by omega)]
          · rw [if_neg h2] at hbc
            by_cases h3 : z.toNat < y.toNat
            · rw [if_pos h3] at hbc
              cases hbc
            · rw [if_pos (by omega)]
        · rw [if_neg h1] at hab
          by_cases h4 : y.toNat < x.toNat
          · rw [if_pos h4] at hab
            cases hab
          · rw [if_neg h4] at hab
            by_cases h2 : y.toNat < z.toNat
            · rw [if_pos (by omega)]
            · rw [if_neg h2] at hbc
              by_cases h3 : z.toNat < y.toNat
              · rw [if_pos h3] at hbc
                cases hbc
              · rw [if_neg h3] at hbc
                rw [if_neg (by omega), if_neg (by omega)]
                exact ih ys zs hab hbc

lemma charsLtB_eq_of_not (a : List Char) : ∀ b : List Char,
    charsLtB a b = false → charsLtB b a = false → a = b := by
  induction a with
  | nil =>
    intro b h1 h2
    cases b with
    | nil => rfl
    | cons y ys =>
      rw [show charsLtB [] (y :: ys) = true from rfl] at h1
      cases h1
  | cons x xs ih =>
    intro b h1 h2
    cases b with
    | nil =>
      rw [show charsLtB [] (x :: xs) = true from rfl] at h2
      cases h2
    | cons y ys =>
      rw [charsLtB_cons] at h1 h2
      by_cases hxy : x.toNat < y.toNat
      · rw [if_pos hxy] at h1
        cases h1
      · by_cases hyx : y.toNat < x.toNat
        · rw [if_pos hyx] at h2
          cases h2
        · rw [if_neg hxy, if_neg hyx] at h1
          rw [if_neg hyx, if_neg hxy] at h2
          have hchar : x = y := by
            have hn : x.toNat = y.toNat := by omega
            rw [← Char.ofNat_toNat x, ← Char.ofNat_toNat y, hn]
          rw [hchar, ih ys h1 h2]

lemma strLtB_irrefl (s : String) : strLtB s s = false := charsLtB_irrefl s.data

lemma strLtB_trans (a b c : String) (h1 : strLtB a b = true) (h2 : strLtB b c = true) :
    strLtB a c = true := charsLtB_trans a.data b.data c.data h1 h2

lemma str_eq_of_not_lt (a b : String) (h1 : strLtB a b = false) (h2 : strLtB b a = false) :
    a = b := by
  have hd : a.data = b.data := charsLtB_eq_of_not a.data b.data h1 h2
  cases a
  cases b
  simp only at hd
  rw [hd]

lemma strLeB_refl (s : String) : strLeB s s = true := by
  unfold strLeB
  rw [strLtB_irrefl]
  rfl

lemma strLeB_total (a b : String) : strLeB a b = true ∨ strLeB b a = true := by
  unfold strLeB
  by_cases h : strLtB b a = true
  · right
    have hab : strLtB a b = false := by
      cases hab : strLtB a b
      · rfl
      · have := strLtB_trans b a b h hab
        rw [strLtB_irrefl] at this
        cases this
    rw [hab]
    rfl
  · left
    have h2 : strLtB b a = false := by
      cases hx : strLtB b a
      · rfl
      · exact absurd hx h
    rw [h2]
    rfl

lemma strLeB_trans (a b c : String) (h1 : strLeB a b = true) (h2 : strLeB b c = true) :
    strLeB a c = true := by
  unfold strLeB at h1 h2 ⊢
  have hba : strLtB b a = false := by
    cases hx : strLtB b a
    · rfl
    · rw [hx] at h1
      cases h1
  have hcb : strLtB c b = false := by
    cases hx : strLtB c b
    · rfl
    · rw [hx] at h2
      cases h2
  have hca : strLtB c a = false := by
    cases hx : strLtB c a
    · rfl
    · exfalso
      by_cases hbc : strLtB b c = true
      · have := strLtB_trans b c a hbc hx
        rw [hba] at this
        cases this
      · have hbc2 : strLtB b c = false := by
          cases hy : strLtB b c
          · rfl
          · exact absurd hy hbc
        have hbceq : c = b := str_eq_of_not_lt c b hcb hbc2
        rw [hbceq] at hx
        rw [hba] at hx
        cases hx
  rw [hca]
  rfl

lemma pairLeB_total (p q : String × String) : pairLeB p q = true ∨ pairLeB q p = true := by
  unfold pairLeB
  by_cases h1 : strLtB p.1 q.1 = true
  · left
    rw [h1]
    rfl
  · by_cases h2 : strLtB q.1 p.1 = true
    · right
      rw [h2]
      rfl
    · have h1f : strLtB p.1 q.1 = false := by
        cases hx : strLtB p.1 q.1
        · rfl
        · exact absurd hx h1
      have h2f : strLtB q.1 p.1 = false := by
        cases hx : strLtB q.1 p.1
        · rfl
        · exact absurd hx h2
      have heq : p.1 = q.1 := str_eq_of_not_lt _ _ h1f h2f
      rcases strLeB_total p.2 q.2 with h | h
      · left
        rw [h1f, heq, h]
        simp
      · right
        rw [h2f, heq, h]
        simp

lemma pairLeB_trans (p q r : String × String) (h1 : pairLeB p q = true)
    (h2 : pairLeB q r = true) : pairLeB p r = true := by
  unfold pairLeB at h1 h2 ⊢
  rcases Bool.or_eq_true_iff.mp h1 with ha | ha
  · rcases Bool.or_eq_true_iff.mp h2 with hb | hb
    · rw [strLtB_trans _ _ _ ha hb]
      rfl
    · have hband := Bool.and_eq_true_iff.mp hb
      have heq : q.1 = r.1 := beq_iff_eq.mp hband.1
      rw [← heq, ha]
      rfl
  · have haand := Bool.and_eq_true_iff.mp ha
    have heqpq : p.1 = q.1 := beq_iff_eq.mp haand.1
    rcases Bool.or_eq_true_iff.mp h2 with hb | hb
    · rw [heqpq, hb]
      rfl
    · have hband := Bool.and_eq_true_iff.mp hb
      have heqqr : q.1 = r.1 := beq_iff_eq.mp hband.1
      have : p.1 = r.1 := heqpq.trans heqqr
      rw [this, beq_self_eq_true, strLeB_trans _ _ _ haand.2 hband.2]
      simp

lemma zipFoldStep_norm (acc : List (String × String)) (p : String × String)
    (h1 : pyStrip p.1 = p.1) (h2 : pyUpper (pyStrip p.2) = p.2)
    (h3 : p.1 ≠ "") (h4 : p.2 ≠ "") :
    zipFoldStep acc p = if (acc.lookup p.1).isSome = true then acc else acc ++ [p] := by
  unfold zipFoldStep
  dsimp only
  rw [h1, h2, if_neg (by push_neg; exact ⟨h3, h4⟩)]

lemma zipFold_lookup (z : String) (pairs : List (String × String))
    (hnorm : ∀ p ∈ pairs,
      pyStrip p.1 = p.1 ∧ pyUpper (pyStrip p.2) = p.2 ∧ p.1 ≠ "" ∧ p.2 ≠ "") :
    ∀ acc : List (String × String),
      (pairs.foldl zipFoldStep acc).lookup z =
        (acc.lookup z).or ((pairs.find? (fun p => p.1 == z)).map Prod.snd) := by
  induction pairs with
  | nil =>
    intro acc
    simp
  | cons p ps ih =>
    intro acc
    have hp := hnorm p (List.mem_cons_self _ _)
    have htail : ∀ q ∈ ps,
        pyStrip q.1 = q.1 ∧ pyUpper (pyStrip q.2) = q.2 ∧ q.1 ≠ "" ∧ q.2 ≠ "" :=
      fun q hq => hnorm q (List.mem_cons_of_mem _ hq)
    rw [List.foldl_cons, zipFoldStep_norm acc p hp.1 hp.2.1 hp.2.2.1 hp.2.2.2]
    by_cases hbz : (p.1 == z) = true
    · have hz : p.1 = z := beq_iff_eq.mp hbz
      rw [@List.find?_cons_of_pos _ (fun q => q.1 == z) p ps hbz]
      by_cases hs : (acc.lookup p.1).isSome = true
      · rw [if_pos hs, ih htail acc]
        cases hl : acc.lookup z
        · rw [hz] at hs
          rw [hl] at hs
          cases hs
        · rfl
      · rw [if_neg hs, ih htail (acc ++ [p]), List.lookup_append]
        have hone : List.lookup z [p] = some p.2 := by
          show List.lookup z [(p.1, p.2)] = some p.2
          rw [hz]
          simp [List.lookup]
        rw [hone]
        cases hl : acc.lookup z
        · rfl
        · rw [hz] at hs
          rw [hl] at hs
          exact absurd rfl hs
    · rw [@List.find?_cons_of_neg _ (fun q => q.1 == z) p ps hbz]
      by_cases hs : (acc.lookup p.1).isSome = true
      · rw [if_pos hs]
        exact ih htail acc
      · rw [if_neg hs, ih htail (acc ++ [p]), List.lookup_append]
        have hone : List.lookup z [p] = none := by
          show List.lookup z [(p.1, p.2)] = none
          have : (z == p.1) = false := by
            rw [beq_eq_false_iff_ne]
            intro h
            exact hbz (beq_iff_eq.mpr h.symm)
          simp [List.lookup, this]
        rw [hone, Option.or_none]

lemma find?_min_of_sorted (z : String) (pairs : List (String × String))
    (hpw : List.Pairwise (fun p q => pairLeB p q = true) pairs) :
    ∀ p0, pairs.find? (fun p => p.1 == z) = some p0 →
      p0.1 = z ∧ ∀ s, (z, s) ∈ pairs → strLeB p0.2 s = true := by
  induction pairs with
  | nil =>
    intro p0 h
    cases h
  | cons p ps ih =>
    rw [List.pairwise_cons] at hpw
    intro p0 hfind
    by_cases hbz : (p.1 == z) = true
    · rw [@List.find?_cons_of_pos _ (fun q => q.1 == z) p ps hbz] at hfind
      injection hfind with heq
      subst heq
      have hz := beq_iff_eq.mp hbz
      refine ⟨hz, ?_⟩
      intro s hs
      rcases List.mem_cons.mp hs with h | h
      · have hsp : s = p.2 := by
          rw [← h]
        rw [hsp]
        exact strLeB_refl _
      · have hple := hpw.1 (z, s) h
        unfold pairLeB at hple
        rw [hz, strLtB_irrefl] at hple
        simpa using hple
    · rw [@List.find?_cons_of_neg _ (fun q => q.1 == z) p ps hbz] at hfind
      obtain ⟨hz, hmin⟩ := ih hpw.2 p0 hfind
      refine ⟨hz, ?_⟩
      intro s hs
      rcases List.mem_cons.mp hs with h | h
      · exfalso
        apply hbz
        rw [← h]
        exact beq_self_eq_true z
      · exact hmin s h

lemma groupAssignments_members (assignments : List (String × String))
    (aggKeys : List String) (tid : String) :
    (groupAssignments assignments aggKeys).1 tid =
      (assignments.filter (fun p => decide (p.1 ∈ aggKeys) && (p.2 == tid))).map Prod.fst := by
  unfold groupAssignments
  suffices h : ∀ acc : (String → List String) × List String,
      (assignments.foldl
        (fun (acc : (String → List String) × List String) (p : String × String) =>
          if p.1 ∈ aggKeys then
            (fun t => if t = p.2 then acc.1 t ++ [p.1] else acc.1 t, acc.2 ++ [p.1])
          else acc) acc).1 tid =
        acc.1 tid ++
          (assignments.filter (fun p => decide (p.1 ∈ aggKeys) && (p.2 == tid))).map Prod.fst by
    rw [h]
    rfl
  induction assignments with
  | nil =>
    intro acc
    simp
  | cons p l ih =>
    intro acc
    rw [List.foldl_cons, List.filter_cons]
    by_cases hin : p.1 ∈ aggKeys
    · rw [if_pos hin]
      by_cases htid : p.2 = tid
      · have hpred : (decide (p.1 ∈ aggKeys) && (p.2 == tid)) = true := by
          rw [decide_eq_true hin, beq_iff_eq.mpr htid]
          rfl
        rw [if_pos hpred, ih]
        simp only [List.map_cons]
        rw [if_pos htid.symm]
        rw [List.append_assoc]
        rfl
      · have hpred : (decide (p.1 ∈ aggKeys) && (p.2 == tid)) = false := by
          rw [Bool.and_eq_false_iff]
          right
          exact beq_eq_false_iff_ne.mpr htid
        rw [if_neg (by rw [hpred]; exact Bool.false_ne_true), ih]
        show (if tid = p.2 then acc.1 tid ++ [p.1] else acc.1 tid) ++ _ = _
        rw [if_neg (fun h => htid h.symm)]
    · rw [if_neg hin]
      have hpred : (decide (p.1 ∈ aggKeys) && (p.2 == tid)) = false := by
        rw [Bool.and_eq_false_iff]
        left
        exact decide_eq_false hin
      rw [if_neg (by rw [hpred]; exact Bool.false_ne_true), ih]

lemma groupAssignments_assigned (assignments : List (String × String))
    (aggKeys : List String) :
    (groupAssignments assignments aggKeys).2 =
      (assignments.filter (fun p => decide (p.1 ∈ aggKeys))).map Prod.fst := by
  unfold groupAssignments
  suffices h : ∀ acc : (String → List String) × List String,
      (assignments.foldl
        (fun (acc : (String → List String) × List String) (p : String × String) =>
          if p.1 ∈ aggKeys then
            (fun t => if t = p.2 then acc.1 t ++ [p.1] else acc.1 t, acc.2 ++ [p.1])
          else acc) acc).2 =
        acc.2 ++ (assignments.filter (fun p => decide (p.1 ∈ aggKeys))).map Prod.fst by
    rw [h]
    rfl
  induction assignments with
  | nil =>
    intro acc
    simp
  | cons p l ih =>
    intro acc
    rw [List.foldl_cons, List.filter_cons]
    by_cases hin : p.1 ∈ aggKeys
    · rw [if_pos hin, if_pos (decide_eq_true hin), ih]
      simp only [List.map_cons]
      rw [List.append_assoc]
      rfl
    · rw [if_neg hin, if_neg (by rw [decide_eq_false hin]; exact Bool.false_ne_true), ih]

lemma mem_scenarioMemberUnits (assignments : List (String × String))
    (aggKeys : List String) (tid x : String) :
    x ∈ scenarioMemberUnits assignments aggKeys tid ↔
      (x, tid) ∈ assignments ∧ x ∈ aggKeys := by
  unfold scenarioMemberUnits
  rw [groupAssignments_members, List.mem_map]
  constructor
  · intro ⟨p, hp, hfst⟩
    have hfil := List.mem_filter.mp hp
    have hand := Bool.and_eq_true_iff.mp hfil.2
    have h1 : p.1 ∈ aggKeys := of_decide_eq_true hand.1
    have h2 : p.2 = tid := beq_iff_eq.mp hand.2
    have hpx : p = (x, tid) := by
      rw [← hfst, ← h2]
    exact ⟨hpx ▸ hfil.1, hfst ▸ h1⟩
  · intro ⟨hmem, hagg⟩
    refine ⟨(x, tid), List.mem_filter.mpr ⟨hmem, ?_⟩, rfl⟩
    rw [decide_eq_true hagg, beq_iff_eq.mpr rfl]
    rfl

lemma mem_scenarioUnassigned (assignments : List (String × String))
    (aggKeys : List String) (x : String) :
    x ∈ scenarioUnassigned assignments aggKeys ↔
      x ∈ aggKeys ∧ ¬ ∃ t, (x, t) ∈ assignments ∧ x ∈ aggKeys := by
  unfold scenarioUnassigned
  rw [(List.perm_insertionSort _ _).mem_iff, List.mem_filter]
  constructor
  · intro ⟨h1, h2⟩
    refine ⟨h1, ?_⟩
    intro ⟨t, ht, hagg⟩
    have hx : x ∈ (groupAssignments assignments aggKeys).2 := by
      rw [groupAssignments_assigned, List.mem_map]
      exact ⟨(x, t), List.mem_filter.mpr ⟨ht, decide_eq_true hagg⟩, rfl⟩
    exact (of_decide_eq_true h2) hx
  · intro ⟨h1, h2⟩
    refine ⟨h1, decide_eq_true ?_⟩
    intro hx
    rw [groupAssignments_assigned, List.mem_map] at hx
    obtain ⟨p, hp, hfst⟩ := hx
    have hfil := List.mem_filter.mp hp
    refine h2 ⟨p.2, ?_, hfst ▸ of_decide_eq_true hfil.2⟩
    rw [← hfst]
    exact hfil.1

lemma eq_snd_of_nodup_keys (l : List (String × String))
    (h : (l.map Prod.fst).Nodup) (x t t' : String)
    (h1 : (x, t) ∈ l) (h2 : (x, t') ∈ l) : t = t' := by
  induction l with
  | nil => cases h1
  | cons p l ih =>
    rw [List.map_cons, List.nodup_cons] at h
    rcases List.mem_cons.mp h1 with ha | ha
    · subst ha
      rcases List.mem_cons.mp h2 with hb | hb
      · injection hb with hx ht
        exact ht.symm
      · exfalso
        apply h.1
        rw [List.mem_map]
        exact ⟨(x, t'), hb, rfl⟩
    · rcases List.mem_cons.mp h2 with hb | hb
      · subst hb
        exfalso
        apply h.1
        rw [List.mem_map]
        exact ⟨(x, t), ha, rfl⟩
      · exact ih h.2 ha hb

lemma lookup_isSome_append (l1 l2 : List (String × String)) (x : String)
    (h : (l1.lookup x).isSome = true) : ((l1 ++ l2).lookup x).isSome = true := by
  rw [List.lookup_append]
  cases hl : l1.lookup x
  · rw [hl] at h
    cases h
  · rfl

lemma lookup_append_self_isSome (l : List (String × String)) (x t : String) :
    ((l ++ [(x, t)]).lookup x).isSome = true := by
  rw [List.lookup_append]
  cases hl : l.lookup x
  · show (List.lookup x [(x, t)]).isSome = true
    simp [List.lookup]
  · rfl

lemma territoryIds_ne_nil (k : ℕ) (hk : 1 ≤ k) : territoryIds k ≠ [] := by
  unfold territoryIds
  intro h
  have h2 := congrArg List.length h
  simp only [List.length_map, List.length_range, List.length_nil] at h2
  omega

lemma firstMinBy_isSome (load : String → ℚ) (l : List String) (h : l ≠ []) :
    (firstMinBy load l).isSome = true := by
  cases l with
  | nil => exact absurd rfl h
  | cons t ts => rfl

lemma pbGreedyStep_noReq (uv : List (String × ℚ)) (tids : List String)
    (adj : String → List String) (st : PBState) (u : String) (htids : tids ≠ []) :
    ∃ t, pbGreedyStep uv tids false adj st u = pbAssign uv st u t := by
  unfold pbGreedyStep
  dsimp only
  split
  · exact ⟨_, rfl⟩
  · split
    · exact ⟨_, rfl⟩
    · rename_i hfm
      exfalso
      have := firstMinBy_isSome st.load tids htids
      rw [hfm] at this
      cases this

lemma pbGreedyFold_noReq (uv : List (String × ℚ)) (tids : List String)
    (adj : String → List String) (htids : tids ≠ []) (units : List String) :
    ∀ st : PBState,
      ((units.foldl (pbGreedyStep uv tids false adj) st).failures = st.failures) ∧
      (∀ x, (st.assignments.lookup x).isSome = true →
        (((units.foldl (pbGreedyStep uv tids false adj) st).assignments.lookup x).isSome
          = true)) ∧
      (∀ u ∈ units,
        (((units.foldl (pbGreedyStep uv tids false adj) st).assignments.lookup u).isSome
          = true)) := by
  induction units with
  | nil =>
    intro st
    refine ⟨rfl, ?_, ?_⟩
    · intro x h
      exact h
    · intro u hu
      cases hu
  | cons u us ih =>
    intro st
    obtain ⟨t, ht⟩ := pbGreedyStep_noReq uv tids adj st u htids
    rw [List.foldl_cons, ht]
    obtain ⟨ihf, ihmono, ihcov⟩ := ih (pbAssign uv st u t)
    refine ⟨ihf, ?_, ?_⟩
    · intro x hx
      exact ihmono x (lookup_isSome_append _ _ _ hx)
    · intro w hw
      rcases List.mem_cons.mp hw with h | h
      · subst h
        exact ihmono w (lookup_append_self_isSome _ _ _)
      · exact ihcov w h

lemma npAbs_eq_abs (q : ℚ) : npAbs q = |q| := by
  unfold npAbs
  rcases lt_or_le q 0 with h | h
  · rw [if_pos h, abs_of_neg h]
  · rw [if_neg (not_lt.mpr h), abs_of_nonneg h]

lemma inner_abs_sum_le (a : ℚ) (ha : 0 ≤ a) (x : List ℚ) (hx : ∀ v ∈ x, 0 ≤ v) :
    (x.map (fun b => npAbs (a - b))).sum ≤ (x.length : ℚ) * a + x.sum := by
  induction x with
  | nil => simp
  | cons b t ih =>
    have hb : 0 ≤ b := hx b (List.mem_cons_self b t)
    have ht : ∀ v ∈ t, 0 ≤ v := fun v hv => hx v (List.mem_cons_of_mem b hv)
    have habs : npAbs (a - b) ≤ a + b := by
      rw [npAbs_eq_abs, abs_sub_le_iff]
      constructor <;> linarith
    have := ih ht
    simp only [List.map_cons, List.sum_cons, List.length_cons]
    push_cast
    linarith

lemma map_linear_sum (c d : ℚ) (x : List ℚ) :
    (x.map (fun a => c * a + d)).sum = c * x.sum + (x.length : ℚ) * d := by
  induction x with
  | nil => simp
  | cons h t ih =>
    simp only [List.map_cons, List.sum_cons, List.length_cons, ih]
    push_cast
    ring

lemma giniDiffSum_nonneg (x : List ℚ) : 0 ≤ giniDiffSum x := by
  unfold giniDiffSum
  apply List.sum_nonneg
  intro s hs
  obtain ⟨a, _, rfl⟩ := List.mem_map.mp hs
  apply List.sum_nonneg
  intro v hv
  obtain ⟨b, _, rfl⟩ := List.mem_map.mp hv
  rw [npAbs_eq_abs]
  exact abs_nonneg _

lemma giniDiffSum_le (x : List ℚ) (hx : ∀ v ∈ x, 0 ≤ v) :
    giniDiffSum x ≤ 2 * (x.length : ℚ) * x.sum := by
  unfold giniDiffSum
  have step1 : (x.map (fun a => (x.map (fun b => npAbs (a - b))).sum)).sum ≤
      (x.map (fun a => (x.length : ℚ) * a + x.sum)).sum := by
    apply List.sum_le_sum
    intro a ha
    exact inner_abs_sum_le a (hx a ha) x hx
  have step2 : (x.map (fun a => (x.length : ℚ) * a + x.sum)).sum =
      (x.length : ℚ) * x.sum + (x.length : ℚ) * x.sum := map_linear_sum _ _ x
  calc (x.map (fun a => (x.map (fun b => npAbs (a - b))).sum)).sum
      ≤ (x.map (fun a => (x.length : ℚ) * a + x.sum)).sum := step1
    _ = (x.length : ℚ) * x.sum + (x.length : ℚ) * x.sum := step2
    _ = 2 * (x.length : ℚ) * x.sum := by ring

lemma foldl_min_pos (h : ℚ) (t : List ℚ) (hh : 0 < h) (ht : ∀ v ∈ t, 0 < v) :
    0 < t.foldl min h := by
  induction t generalizing h with
  | nil => exact hh
  | cons a t ih =>
    simp only [List.foldl_cons]
    exact ih (min h a) (lt_min hh (ht a (List.mem_cons_self a t)))
      (fun v hv => ht v (List.mem_cons_of_mem a hv))

lemma bfsAux_init_subset (adj : String → List String) (allowed : List String)
    (visited queue : List String) : ∀ v ∈ visited, v ∈ bfsAux adj allowed visited queue := by
  induction visited, queue using bfsAux.induct adj allowed with
  | case1 visited =>
    intro v hv
    rw [bfsAux]
    exact hv
  | case2 visited current queue newNbrs ih =>
    intro v hv
    rw [bfsAux]
    exact ih v (List.mem_append_left _ hv)

lemma bfsAux_mem_allowed (adj : String → List String) (allowed : List String)
    (visited queue : List String) :
    ∀ v ∈ bfsAux adj allowed visited queue, v ∈ visited ∨ v ∈ allowed := by
  induction visited, queue using bfsAux.induct adj allowed with
  | case1 visited =>
    intro v hv
    rw [bfsAux] at hv
    exact Or.inl hv
  | case2 visited current queue newNbrs ih =>
    intro v hv
    rw [bfsAux] at hv
    rcases ih v hv with h | h
    · rcases List.mem_append.mp h with h1 | h1
      · exact Or.inl h1
      · exact Or.inr (of_decide_eq_true (List.mem_filter.mp h1).2).1
    · exact Or.inr h

lemma bfsAux_nodup (adj : String → List String) (allowed : List String)
    (visited queue : List String) :
    visited.Nodup → (bfsAux adj allowed visited queue).Nodup := by
  induction visited, queue using bfsAux.induct adj allowed with
  | case1 visited =>
    intro h
    rw [bfsAux]
    exact h
  | case2 visited current queue newNbrs ih =>
    intro h
    rw [bfsAux]
    apply ih
    refine List.Nodup.append h (((adj current).nodup_dedup).filter _) ?_
    intro a ha hb
    exact (of_decide_eq_true (List.mem_filter.mp hb).2).2 ha

lemma bfsAux_sound (adj : String → List String) (allowed : List String)
    (start : String) (visited queue : List String) :
    (∀ v ∈ visited, ReachIn adj allowed start v ∧ v ∈ allowed) →
    (∀ q ∈ queue, q ∈ visited) →
    ∀ v ∈ bfsAux adj allowed visited queue, ReachIn adj allowed start v ∧ v ∈ allowed := by
  induction visited, queue using bfsAux.induct adj allowed with
  | case1 visited =>
    intro h _ v hv
    rw [bfsAux] at hv
    exact h v hv
  | case2 visited current queue newNbrs ih =>
    intro h hq v hv
    rw [bfsAux] at hv
    refine ih ?_ ?_ v hv
    · intro w hw
      rcases List.mem_append.mp hw with h1 | h1
      · exact h w h1
      · have hspec := List.mem_filter.mp h1
        have hcurR := h current (hq current (List.mem_cons_self _ _))
        have hw2 := of_decide_eq_true hspec.2
        have hdedup : w ∈ adj current := List.mem_dedup.mp hspec.1
        exact ⟨Relation.ReflTransGen.tail hcurR.1 ⟨hcurR.2, hw2.1, hdedup⟩, hw2.1⟩
    · intro q hqmem
      rcases List.mem_append.mp hqmem with h1 | h1
      · exact List.mem_append_left _ (hq q (List.mem_cons_of_mem _ h1))
      · exact List.mem_append_right _ h1

lemma bfsAux_closed (adj : String → List String) (allowed : List String)
    (visited queue : List String) :
    (∀ q ∈ queue, q ∈ visited) →
    (∀ v ∈ visited, v ∉ queue → ∀ n ∈ adj v, n ∈ allowed → n ∈ visited) →
    ∀ v ∈ bfsAux adj allowed visited queue, ∀ n ∈ adj v, n ∈ allowed →
      n ∈ bfsAux adj allowed visited queue := by
  induction visited, queue using bfsAux.induct adj allowed with
  | case1 visited =>
    intro _ hcl v hv n hn hna
    rw [bfsAux] at hv ⊢
    exact hcl v hv (List.not_mem_nil v) n hn hna
  | case2 visited current queue newNbrs ih =>
    intro hq hcl
    rw [bfsAux]
    refine ih ?_ ?_
    · intro q hqmem
      rcases List.mem_append.mp hqmem with h1 | h1
      · exact List.mem_append_left _ (hq q (List.mem_cons_of_mem _ h1))
      · exact List.mem_append_right _ h1
    · intro v hv hvq n hn hna
      rcases List.mem_append.mp hv with h1 | h1
      · by_cases hvc : v = current
        · subst hvc
          by_cases hnv : n ∈ visited
          · exact List.mem_append_left _ hnv
          · refine List.mem_append_right _ ?_
            exact List.mem_filter.mpr ⟨List.mem_dedup.mpr hn, decide_eq_true ⟨hna, hnv⟩⟩
        · have hvnotq : v ∉ current :: queue := by
            intro hmem
            rcases List.mem_cons.mp hmem with h2 | h2
            · exact hvc h2
            · exact hvq (List.mem_append_left _ h2)
          exact List.mem_append_left _ (hcl v h1 hvnotq n hn hna)
      · exact absurd (List.mem_append_right _ h1) hvq

lemma reach_mem_of_closed (adj : String → List String) (allowed : List String)
    (start : String) (S : List String) (hs : start ∈ S)
    (hcl : ∀ v ∈ S, ∀ n ∈ adj v, n ∈ allowed → n ∈ S) :
    ∀ m, ReachIn adj allowed start m → m ∈ S := by
  intro m hm
  induction hm with
  | refl => exact hs
  | tail _ hbc ih => exact hcl _ ih _ hbc.2.2 hbc.2.1

lemma contiguous_main_iff (adj : String → List String) (T : List String)
    (hnd : T.Nodup) (start : String) (rest : List String)
    (hm : T.filter (fun s => decide (s ∉ ISLAND_STATES)) = start :: rest)
    (hlen : ¬ T.length ≤ 1) :
    (is_territory_contiguous T adj = true ↔
      ∀ m ∈ start :: rest, ReachIn adj (start :: rest) start m) := by
  unfold is_territory_contiguous
  rw [if_neg hlen, hm]
  show ((bfsAux adj (start :: rest) [start] [start]).length == (start :: rest).length)
      = true ↔ _
  set allowed := start :: rest with hallowed
  set V := bfsAux adj allowed [start] [start] with hV
  have hstartA : start ∈ allowed := List.mem_cons_self _ _
  have hstartV : start ∈ V :=
    bfsAux_init_subset adj allowed [start] [start] start (List.mem_singleton.mpr rfl)
  have hVsub : ∀ v ∈ V, v ∈ allowed := by
    intro v hv
    rcases bfsAux_mem_allowed adj allowed [start] [start] v hv with h | h
    · rw [List.mem_singleton.mp h]
      exact hstartA
    · exact h
  have hVnodup : V.Nodup := bfsAux_nodup adj allowed [start] [start] (List.nodup_singleton start)
  have hAnodup : allowed.Nodup := hm ▸ hnd.filter _
  have hsound : ∀ v ∈ V, ReachIn adj allowed start v := by
    intro v hv
    refine (bfsAux_sound adj allowed start [start] [start] ?_ ?_ v hv).1
    · intro w hw
      rw [List.mem_singleton.mp hw]
      exact ⟨Relation.ReflTransGen.refl, hstartA⟩
    · intro q hq
      exact hq
  have hcomplete : ∀ m, ReachIn adj allowed start m → m ∈ V := by
    refine reach_mem_of_closed adj allowed start V hstartV ?_
    refine bfsAux_closed adj allowed [start] [start] ?_ ?_
    · intro q hq
      exact hq
    · intro v hv hvq
      exact absurd hv hvq
  have hVfin : V.toFinset ⊆ allowed.toFinset := by
    intro a ha
    exact List.mem_toFinset.mpr (hVsub a (List.mem_toFinset.mp ha))
  constructor
  · intro hlen_eq m hmem
    have hlen2 : V.length = allowed.length := beq_iff_eq.mp hlen_eq
    have hcard : allowed.toFinset.card ≤ V.toFinset.card := by
      rw [List.toFinset_card_of_nodup hVnodup, List.toFinset_card_of_nodup hAnodup, hlen2]
    have heqfin : V.toFinset = allowed.toFinset := Finset.eq_of_subset_of_card_le hVfin hcard
    have hmV : m ∈ V := by
      rw [← List.mem_toFinset, heqfin, List.mem_toFinset]
      exact hmem
    exact hsound m hmV
  · intro hreach
    have hAsubV : allowed.toFinset ⊆ V.toFinset := by
      intro a ha
      exact List.mem_toFinset.mpr (hcomplete a (hreach a (List.mem_toFinset.mp ha)))
    have heqfin : V.toFinset = allowed.toFinset := Finset.Subset.antisymm hVfin hAsubV
    have : V.length = allowed.length := by
      rw [← List.toFinset_card_of_nodup hVnodup, ← List.toFinset_card_of_nodup hAnodup, heqfin]
    exact beq_iff_eq.mpr this

/-! ## Claim theorems: metrics -/

/-- **C6**: `gini` discards negative values; returns 0 when no values remain,
and also when values remain but their mean is zero; otherwise returns the sum
of absolute differences over all ordered pairs divided by `2·n²·mean`; the
result always lies in `[0,1]`; `gini [10,10,10,10] = 0` and
`gini [0,100] = 1/2`. -/
theorem gini_spec :
    (∀ values : List ℚ, 0 ≤ gini values ∧ gini values ≤ 1) ∧
    (∀ values : List ℚ, (values.filter (fun v => decide (0 ≤ v))).length = 0 →
      gini values = 0) ∧
    (∀ values : List ℚ,
      (values.filter (fun v => decide (0 ≤ v))).sum /
          ((values.filter (fun v => decide (0 ≤ v))).length : ℚ) = 0 →
      gini values = 0) ∧
    (∀ values : List ℚ,
      (values.filter (fun v => decide (0 ≤ v))).sum /
          (((values.filter (fun v => decide (0 ≤ v))).length : ℚ)) ≠ 0 →
      (values.filter (fun v => decide (0 ≤ v))).length ≠ 0 →
      gini values = giniDiffSum (values.filter (fun v => decide (0 ≤ v))) /
        (2 * ((values.filter (fun v => decide (0 ≤ v))).length : ℚ) *
          ((values.filter (fun v => decide (0 ≤ v))).length : ℚ) *
          ((values.filter (fun v => decide (0 ≤ v))).sum /
            ((values.filter (fun v => decide (0 ≤ v))).length : ℚ)))) ∧
    gini [10, 10, 10, 10] = 0 ∧
    gini [0, 100] = 1 / 2 := by
  refine ⟨?_, ?_, ?_, ?_, ?_, ?_⟩
  · intro values
    unfold gini
    set x := values.filter (fun v => decide (0 ≤ v)) with hx
    have hpos : ∀ v ∈ x, 0 ≤ v := by
      intro v hv
      rw [hx] at hv
      have := (List.mem_filter.mp hv).2
      exact of_decide_eq_true this
    by_cases h0 : x.length = 0
    · rw [if_pos h0]; norm_num
    · rw [if_neg h0]
      by_cases hm : x.sum / (x.length : ℚ) = 0
      · rw [if_pos hm]; norm_num
      · rw [if_neg hm]
        have hlen : (0 : ℚ) < (x.length : ℚ) := by
          have : 0 < x.length := Nat.pos_of_ne_zero h0
          exact_mod_cast this
        have hsum0 : 0 ≤ x.sum := List.sum_nonneg hpos
        have hsumne : x.sum ≠ 0 := by
          intro hz
          apply hm
          rw [hz, zero_div]
        have hsum : 0 < x.sum := lt_of_le_of_ne hsum0 (Ne.symm hsumne)
        have hden : 0 < 2 * (x.length : ℚ) * (x.length : ℚ) * (x.sum / (x.length : ℚ)) := by
          positivity
        have hdeq : 2 * (x.length : ℚ) * (x.length : ℚ) * (x.sum / (x.length : ℚ)) =
            2 * (x.length : ℚ) * x.sum := by
          field_simp
          ring
        constructor
        · exact div_nonneg (giniDiffSum_nonneg x) (le_of_lt hden)
        · rw [div_le_one hden, hdeq]
          exact giniDiffSum_le x hpos
  · intro values h
    unfold gini
    rw [if_pos h]
  · intro values hm
    unfold gini
    by_cases h0 : (values.filter (fun v => decide (0 ≤ v))).length = 0
    · rw [if_pos h0]
    · rw [if_neg h0, if_pos hm]
  · intro values hm h0
    unfold gini
    rw [if_neg h0, if_neg hm]
  · norm_num [gini, giniDiffSum, npAbs, List.filter]
  · norm_num [gini, giniDiffSum, npAbs, List.filter]

/-- **C1 counterexample**: the claim (and spec example) says
`max_min_ratio([0,5]) = +∞`; the code filters with `x[x > 0]`, so `0` is
discarded, the remaining minimum is `5`, and the result is `1.0`, not `+∞`. -/
theorem max_min_ratio_zero_five_not_inf :
    max_min_ratio [0, 5] = some 1 ∧ max_min_ratio [0, 5] ≠ none := by
  have h1 : max_min_ratio [0, 5] = some 1 := by
    norm_num [max_min_ratio, List.filter, min_def, max_def]
  exact ⟨h1, by rw [h1]; exact fun h => Option.noConfusion h⟩

/-- **C1 (amended)**: `max_min_ratio` first discards non-positive values; if
none remain it returns `1.0`; otherwise the remaining minimum is strictly
positive, so the `min == 0 → +∞` branch of the source is unreachable and the
function returns `max/min` (never `+∞`). `max_min_ratio [10,20,40] = 4` and
`max_min_ratio [0,5] = 1`. -/
theorem max_min_ratio_spec :
    (∀ values : List ℚ, values.filter (fun v => decide (0 < v)) = [] →
      max_min_ratio values = some 1) ∧
    (∀ values : List ℚ, ∀ h : ℚ, ∀ t : List ℚ,
      values.filter (fun v => decide (0 < v)) = h :: t →
      0 < t.foldl min h ∧
        max_min_ratio values = some (t.foldl max h / t.foldl min h)) ∧
    (∀ values : List ℚ, max_min_ratio values ≠ none) ∧
    max_min_ratio [10, 20, 40] = some 4 ∧
    max_min_ratio [0, 5] = some 1 := by
  have hpos : ∀ (values : List ℚ) (h : ℚ) (t : List ℚ),
      values.filter (fun v => decide (0 < v)) = h :: t → 0 < t.foldl min h := by
    intro values h t hf
    have hmem : ∀ v ∈ h :: t, 0 < v := by
      intro v hv
      rw [← hf] at hv
      exact of_decide_eq_true (List.mem_filter.mp hv).2
    exact foldl_min_pos h t (hmem h (List.mem_cons_self h t))
      (fun v hv => hmem v (List.mem_cons_of_mem h hv))
  have hcons : ∀ (values : List ℚ) (h : ℚ) (t : List ℚ),
      values.filter (fun v => decide (0 < v)) = h :: t →
      max_min_ratio values = some (t.foldl max h / t.foldl min h) := by
    intro values h t hf
    unfold max_min_ratio
    rw [hf]
    simp only [if_neg (ne_of_gt (hpos values h t hf))]
  refine ⟨?_, ?_, ?_, ?_, ?_⟩
  · intro values hf
    unfold max_min_ratio
    rw [hf]
  · intro values h t hf
    exact ⟨hpos values h t hf, hcons values h t hf⟩
  · intro values
    rcases hempty : values.filter (fun v => decide (0 < v)) with _ | ⟨h, t⟩
    · unfold max_min_ratio
      rw [hempty]
      simp
    · rw [hcons values h t hempty]
      simp
  · norm_num [max_min_ratio, List.filter, min_def, max_def]
  · norm_num [max_min_ratio, List.filter, min_def, max_def]

/-- **C1 witness**: the conditional parts of `max_min_ratio_spec` evaluated at
the concrete inputs `[10,20,40]` (non-empty filter) and `[]` (empty filter). -/
theorem max_min_ratio_spec_witness :
    ([10, 20, 40] : List ℚ).filter (fun v => decide (0 < v)) = [10, 20, 40] ∧
    (0 < ([20, 40] : List ℚ).foldl min 10 ∧
      max_min_ratio [10, 20, 40] = some (([20, 40] : List ℚ).foldl max 10 /
        ([20, 40] : List ℚ).foldl min 10)) ∧
    ([] : List ℚ).filter (fun v => decide (0 < v)) = [] ∧
    max_min_ratio ([] : List ℚ) = some 1 := by
  have h1 : ([10, 20, 40] : List ℚ).filter (fun v => decide (0 < v)) = [10, 20, 40] := by
    norm_num [List.filter]
  have h2 : ([] : List ℚ).filter (fun v => decide (0 < v)) = [] := by
    norm_num [List.filter]
  exact ⟨h1, max_min_ratio_spec.2.1 [10, 20, 40] 10 [20, 40] h1, h2,
    max_min_ratio_spec.1 [] h2⟩

/-- **C7**: the derived `Combined_ICP_Score` equals the sum of the three
division ICP scores divided by the number of divisions with a strictly
positive score, and equals 0 when no division score is positive; scores
`(80, 0, 40)` yield `60`. -/
theorem Combined_ICP_Score_spec :
    (∀ hw cre cpe : ℚ, ¬ 0 < hw → ¬ 0 < cre → ¬ 0 < cpe →
      Combined_ICP_Score hw cre cpe = 0) ∧
    (∀ hw cre cpe : ℚ, 0 < div_count hw cre cpe →
      Combined_ICP_Score hw cre cpe = (hw + cre + cpe) / (div_count hw cre cpe : ℚ)) ∧
    Combined_ICP_Score 80 0 40 = 60 := by
  refine ⟨?_, ?_, ?_⟩
  · intro hw cre cpe h1 h2 h3
    unfold Combined_ICP_Score div_count
    rw [if_neg h1, if_neg h2, if_neg h3]
    norm_num
  · intro hw cre cpe h
    unfold Combined_ICP_Score
    rw [if_pos h]
  · norm_num [Combined_ICP_Score, div_count]

/-- **C7 witness**: `Combined_ICP_Score_spec` applied at the concrete scores
`(0, -1, 0)` (no positive division) and `(80, 0, 40)` (two positive
divisions). -/
theorem Combined_ICP_Score_spec_witness :
    Combined_ICP_Score 0 (-1) 0 = 0 ∧
    (0 < div_count 80 0 40 ∧
      Combined_ICP_Score 80 0 40 = (80 + 0 + 40) / (div_count 80 0 40 : ℚ)) := by
  refine ⟨Combined_ICP_Score_spec.1 0 (-1) 0 (by norm_num) (by norm_num) (by norm_num),
    ⟨by norm_num [div_count], Combined_ICP_Score_spec.2.1 80 0 40 (by norm_num [div_count])⟩⟩

/-! ## Claim theorems: contiguity primitives -/

/-- **C4**: `is_territory_contiguous` returns `true` for every territory of at
most one unit under any adjacency; returns `true` for every islands-only
territory regardless of adjacency; and when the mainland members are
`start :: rest`, it returns `true` iff every mainland member is reachable from
the first mainland member through edges confined to the mainland members,
island members ignored entirely. -/
theorem is_territory_contiguous_spec (adj : String → List String) (T : List String)
    (hnd : T.Nodup) :
    (T.length ≤ 1 → is_territory_contiguous T adj = true) ∧
    ((∀ u ∈ T, u ∈ ISLAND_STATES) → is_territory_contiguous T adj = true) ∧
    (∀ start rest, T.filter (fun s => decide (s ∉ ISLAND_STATES)) = start :: rest →
      (is_territory_contiguous T adj = true ↔
        ∀ m ∈ start :: rest, ReachIn adj (start :: rest) start m)) := by
  refine ⟨?_, ?_, ?_⟩
  · intro h
    unfold is_territory_contiguous
    rw [if_pos h]
  · intro h
    by_cases hlen : T.length ≤ 1
    · unfold is_territory_contiguous
      rw [if_pos hlen]
    · have hfil : T.filter (fun s => decide (s ∉ ISLAND_STATES)) = [] := by
        rw [List.filter_eq_nil_iff]
        intro a ha
        simp only [decide_eq_true_eq]
        intro hcontra
        exact hcontra (h a ha)
      unfold is_territory_contiguous
      rw [if_neg hlen, hfil]
  · intro start rest hm
    by_cases hlen : T.length ≤ 1
    · have htrue : is_territory_contiguous T adj = true := by
        unfold is_territory_contiguous
        rw [if_pos hlen]
      have hrest : rest = [] := by
        have h1 : (start :: rest).length ≤ T.length := by
          rw [← hm]
          exact List.length_filter_le _ _
        have h2 : rest.length + 1 ≤ 1 := by
          have := le_trans h1 hlen
          simpa using this
        have : rest.length = 0 := by omega
        exact List.length_eq_zero.mp this
      subst hrest
      refine iff_of_true htrue ?_
      intro m hmem
      rw [List.mem_singleton.mp hmem]
      exact Relation.ReflTransGen.refl
    · exact contiguous_main_iff adj T hnd start rest hm hlen

/-- **C4 witness**: `is_territory_contiguous_spec` applied to the two-island
territory `["AK", "HI"]` with an empty adjacency, whose `Nodup` hypothesis and
islands-only antecedent are discharged concretely. -/
theorem is_territory_contiguous_spec_witness :
    (["AK", "HI"] : List String).Nodup ∧
    ((∀ u ∈ (["AK", "HI"] : List String), u ∈ ISLAND_STATES) →
      is_territory_contiguous ["AK", "HI"] (fun _ => []) = true) ∧
    is_territory_contiguous ["AK", "HI"] (fun _ => []) = true := by
  have hnd : (["AK", "HI"] : List String).Nodup := by decide
  have h := is_territory_contiguous_spec (fun _ => []) ["AK", "HI"] hnd
  exact ⟨hnd, h.2.1, h.2.1 (by decide)⟩

/-- **C5**: `can_add_to_territory` admits anything into an empty territory;
rejects every island candidate for a non-empty territory (even an all-island
one); rejects every candidate when the territory already contains an island;
and otherwise admits a mainland candidate iff one of its neighbors is already
a member.  In particular `can_add_to_territory "HI" ["CA"] adj = false` and
`can_add_to_territory "HI" [] adj = true`. -/
theorem can_add_to_territory_spec (adj : String → List String) :
    (∀ s, can_add_to_territory s [] adj = true) ∧
    (∀ s T, s ∈ ISLAND_STATES → T ≠ [] → can_add_to_territory s T adj = false) ∧
    (∀ s T, s ∉ ISLAND_STATES → (∃ t ∈ T, t ∈ ISLAND_STATES) →
      can_add_to_territory s T adj = false) ∧
    (∀ s T, s ∉ ISLAND_STATES → (∀ t ∈ T, t ∉ ISLAND_STATES) → T ≠ [] →
      (can_add_to_territory s T adj = true ↔ ∃ n ∈ adj s, n ∈ T)) ∧
    can_add_to_territory "HI" ["CA"] adj = false ∧
    can_add_to_territory "HI" [] adj = true := by
  have h1 : ∀ s, can_add_to_territory s [] adj = true := by
    intro s
    unfold can_add_to_territory
    rfl
  have h2 : ∀ s T, s ∈ ISLAND_STATES → T ≠ [] → can_add_to_territory s T adj = false := by
    intro s T hs hT
    rcases T with _ | ⟨a, T⟩
    · exact absurd rfl hT
    · unfold can_add_to_territory
      rw [if_neg (by simp), if_pos (decide_eq_true hs)]
      simp
  have h3 : ∀ s T, s ∉ ISLAND_STATES → (∃ t ∈ T, t ∈ ISLAND_STATES) →
      can_add_to_territory s T adj = false := by
    intro s T hs ⟨t, htT, hti⟩
    rcases T with _ | ⟨a, T⟩
    · exact absurd htT (List.not_mem_nil t)
    · unfold can_add_to_territory
      rw [if_neg (by simp), if_neg (by simp [hs]),
        if_pos (List.any_eq_true.mpr ⟨t, htT, decide_eq_true hti⟩)]
  have h4 : ∀ s T, s ∉ ISLAND_STATES → (∀ t ∈ T, t ∉ ISLAND_STATES) → T ≠ [] →
      (can_add_to_territory s T adj = true ↔ ∃ n ∈ adj s, n ∈ T) := by
    intro s T hs hT hTne
    rcases T with _ | ⟨a, T⟩
    · exact absurd rfl hTne
    · have hany : (a :: T).any (fun t => decide (t ∈ ISLAND_STATES)) = false := by
        rw [List.any_eq_false]
        intro t ht
        simp only [decide_eq_true_eq]
        exact hT t ht
      unfold can_add_to_territory
      rw [if_neg (by simp), if_neg (by simp [hs]), if_neg (by simp [hany])]
      constructor
      · intro h
        obtain ⟨n, hn, hd⟩ := List.any_eq_true.mp h
        exact ⟨n, hn, of_decide_eq_true hd⟩
      · intro ⟨n, hn, hd⟩
        exact List.any_eq_true.mpr ⟨n, hn, decide_eq_true hd⟩
  exact ⟨h1, h2, h3, h4, h2 "HI" ["CA"] (by decide) (by simp), h1 "HI"⟩

/-- **C5 witness**: `can_add_to_territory_spec` applied with the empty
adjacency; its island-candidate part instantiated at `("HI", ["CA"])` and its
empty-territory part at `"HI"`. -/
theorem can_add_to_territory_spec_witness :
    can_add_to_territory "HI" ["CA"] (fun _ => []) = false ∧
    can_add_to_territory "HI" [] (fun _ => []) = true :=
  ⟨(can_add_to_territory_spec (fun _ => [])).2.1 "HI" ["CA"] (by decide) (by simp),
    (can_add_to_territory_spec (fun _ => [])).1 "HI"⟩

/-- **C10**: incremental admission preserves contiguity.  For a symmetric
adjacency, a contiguous territory `T`, and a candidate `u ∉ T`, if
`can_add_to_territory u T adj` holds then `T ∪ {u}` is still contiguous. -/
theorem can_add_preserves_contiguity (adj : String → List String)
    (hsym : ∀ a b, a ∈ adj b → b ∈ adj a)
    (T : List String) (u : String) (hnd : (u :: T).Nodup)
    (hT : is_territory_contiguous T adj = true)
    (hadd : can_add_to_territory u T adj = true) :
    is_territory_contiguous (u :: T) adj = true := by
  rcases T with _ | ⟨t0, T'⟩
  · unfold is_territory_contiguous
    rw [if_pos (by simp)]
  · set T := t0 :: T' with hTdef
    -- Extract the three facts packed into `can_add_to_territory u T adj = true`.
    have hne : T.isEmpty = false := by rw [hTdef]; rfl
    have hu_main : u ∉ ISLAND_STATES := by
      intro hu
      unfold can_add_to_territory at hadd
      rw [if_neg (by rw [hne]; exact Bool.false_ne_true), if_pos (decide_eq_true hu)] at hadd
      rw [hTdef] at hadd
      simp at hadd
    have hT_main : ∀ t ∈ T, t ∉ ISLAND_STATES := by
      intro t ht hti
      unfold can_add_to_territory at hadd
      rw [if_neg (by rw [hne]; exact Bool.false_ne_true),
        if_neg (by simp [hu_main]),
        if_pos (List.any_eq_true.mpr ⟨t, ht, decide_eq_true hti⟩)] at hadd
      exact Bool.false_ne_true hadd
    have hnbr : ∃ n ∈ adj u, n ∈ T := by
      have hany : (T.any (fun t => decide (t ∈ ISLAND_STATES))) = false := by
        rw [List.any_eq_false]
        intro t ht
        simp only [decide_eq_true_eq]
        exact hT_main t ht
      unfold can_add_to_territory at hadd
      rw [if_neg (by rw [hne]; exact Bool.false_ne_true),
        if_neg (by simp [hu_main]), if_neg (by simp [hany])] at hadd
      obtain ⟨n, hn, hd⟩ := List.any_eq_true.mp hadd
      exact ⟨n, hn, of_decide_eq_true hd⟩
    obtain ⟨n0, hn0adj, hn0T⟩ := hnbr
    -- The enlarged territory is all mainland.
    have hfil : (u :: T).filter (fun s => decide (s ∉ ISLAND_STATES)) = u :: T := by
      rw [List.filter_eq_self]
      intro a ha
      rcases List.mem_cons.mp ha with h | h
      · exact decide_eq_true (h ▸ hu_main)
      · exact decide_eq_true (hT_main a h)
    have hlen : ¬ (u :: T).length ≤ 1 := by
      rw [hTdef]
      simp
    rw [contiguous_main_iff adj (u :: T) hnd u T hfil hlen]
    -- Symmetry and monotonicity facts about reachability.
    have hsymStep : Symmetric (AdjStep adj T) := by
      intro a b ⟨ha, hb, hba⟩
      exact ⟨hb, ha, hsym b a hba⟩
    have hmono : ∀ a b, ReachIn adj T a b → ReachIn adj (u :: T) a b := by
      intro a b h
      refine Relation.ReflTransGen.mono ?_ h
      intro x y ⟨hx, hy, hxy⟩
      exact ⟨List.mem_cons_of_mem _ hx, List.mem_cons_of_mem _ hy, hxy⟩
    have hreachT : ∀ a ∈ T, ∀ b ∈ T, ReachIn adj T a b := by
      by_cases hlenT : T.length ≤ 1
      · have hT1 : T' = [] := by
          rcases T' with _ | ⟨x, xs⟩
          · rfl
          · rw [hTdef] at hlenT
            simp only [List.length_cons] at hlenT
            omega
        subst hT1
        intro a ha b hb
        rw [List.mem_singleton.mp ha, List.mem_singleton.mp hb]
        exact Relation.ReflTransGen.refl
      · have hfilT : T.filter (fun s => decide (s ∉ ISLAND_STATES)) = t0 :: T' := by
          rw [← hTdef, List.filter_eq_self]
          intro a ha
          exact decide_eq_true (hT_main a ha)
        have hiff := contiguous_main_iff adj T (hnd.of_cons) t0 T' hfilT hlenT
        have hr := hiff.mp hT
        rw [← hTdef] at hr
        intro a ha b hb
        have hra : Relation.ReflTransGen (AdjStep adj T) t0 a := hr a ha
        have hrb : Relation.ReflTransGen (AdjStep adj T) t0 b := hr b hb
        exact Relation.ReflTransGen.trans
          ((Relation.ReflTransGen.symmetric hsymStep) hra) hrb
    -- Every member of `u :: T` is reachable from `u` inside `u :: T`.
    intro m hm
    rcases List.mem_cons.mp hm with h | h
    · rw [h]
      exact Relation.ReflTransGen.refl
    · have hstep : AdjStep adj (u :: T) u n0 :=
        ⟨List.mem_cons_self _ _, List.mem_cons_of_mem _ hn0T, hn0adj⟩
      have h1 : ReachIn adj (u :: T) u n0 := Relation.ReflTransGen.single hstep
      have h2 : ReachIn adj (u :: T) n0 m := hmono n0 m (hreachT n0 hn0T m h)
      exact Relation.ReflTransGen.trans h1 h2

/-- **C10 witness**: `can_add_preserves_contiguity` applied to the symmetric
two-node adjacency `A ↔ B`, the contiguous singleton territory `["A"]`, and
candidate `"B"`. -/
theorem can_add_preserves_contiguity_witness :
    is_territory_contiguous ["B", "A"]
      (fun s => if s = "A" then ["B"] else if s = "B" then ["A"] else []) = true := by
  refine can_add_preserves_contiguity _ ?_ ["A"] "B" (by decide) ?_ (by decide)
  · intro a b hab
    split_ifs at hab with h1 h2
    · subst h1
      rw [List.mem_singleton.mp hab]
      decide
    · subst h2
      rw [List.mem_singleton.mp hab]
      decide
    · exact absurd hab (List.not_mem_nil a)
  · unfold is_territory_contiguous
    rw [if_pos (by simp)]

/-- **C6 witness**: the empty-input branch of `gini_spec` applied at `[]`
(`length = 0` discharged by `rfl`), and the zero-mean branch applied at
`[0, 0]`, where both values survive the filter but their mean is zero. -/
theorem gini_spec_witness :
    ((([] : List ℚ).filter (fun v => decide (0 ≤ v))).length = 0 ∧ gini [] = 0) ∧
    ((([0, 0] : List ℚ).filter (fun v => decide (0 ≤ v))).sum /
        ((([0, 0] : List ℚ).filter (fun v => decide (0 ≤ v))).length : ℚ) = 0 ∧
      gini [0, 0] = 0) := by
  have hmean : (([0, 0] : List ℚ).filter (fun v => decide (0 ≤ v))).sum /
      ((([0, 0] : List ℚ).filter (fun v => decide (0 ≤ v))).length : ℚ) = 0 := by
    norm_num [List.filter]
  exact ⟨⟨rfl, gini_spec.2.1 [] rfl⟩, ⟨hmean, gini_spec.2.2.1 [0, 0] hmean⟩⟩

/-! ## Claim theorems: scenario partition -/

/-- **C2 counterexample**: the claim quantifies over *every* assignment map,
but `compute_scenario_stats` keeps a unit assigned to an out-of-range label in
`assigned_units` while never listing it in any `T1..Tk` member list: with
`assignments = {"CA": "T99"}`, aggregate keys `{"CA"}`, and `k = 1`, the unit
`CA` is neither in `T1`'s member list nor in the unassigned list — it is
omitted, so the partition property fails. -/
theorem scenario_partition_cex :
    territoryIds 1 = ["T1"] ∧
    scenarioMemberUnits [("CA", "T99")] ["CA"] "T1" = [] ∧
    scenarioUnassigned [("CA", "T99")] ["CA"] = [] ∧
    "CA" ∈ (["CA"] : List String) := by
  refine ⟨by decide, by decide, by decide, by decide⟩

/-- **C2 (amended)**: for every assignment map with distinct unit keys *whose
territory labels all lie in `T1..Tk`* and every duplicate-free aggregate key
set, the scenario partitions the aggregate keys: every aggregate key is in
some label's member list or in the unassigned list; member units are aggregate
keys and not unassigned; unassigned units are aggregate keys; no unit is in
two different labels' member lists; and all the lists are duplicate-free. -/
theorem scenario_partition (assignments : List (String × String)) (aggKeys : List String)
    (k : ℕ)
    (hkeys : (assignments.map Prod.fst).Nodup)
    (hagg : aggKeys.Nodup)
    (htids : ∀ p ∈ assignments, p.2 ∈ territoryIds k) :
    (∀ x ∈ aggKeys,
      (∃ tid ∈ territoryIds k, x ∈ scenarioMemberUnits assignments aggKeys tid) ∨
        x ∈ scenarioUnassigned assignments aggKeys) ∧
    (∀ x : String, ∀ tid : String, x ∈ scenarioMemberUnits assignments aggKeys tid →
      x ∈ aggKeys ∧ x ∉ scenarioUnassigned assignments aggKeys) ∧
    (∀ x ∈ scenarioUnassigned assignments aggKeys, x ∈ aggKeys) ∧
    (∀ x tid1 tid2 : String, x ∈ scenarioMemberUnits assignments aggKeys tid1 →
      x ∈ scenarioMemberUnits assignments aggKeys tid2 → tid1 = tid2) ∧
    (∀ tid : String, (scenarioMemberUnits assignments aggKeys tid).Nodup) ∧
    (scenarioUnassigned assignments aggKeys).Nodup := by
  refine ⟨?_, ?_, ?_, ?_, ?_, ?_⟩
  · intro x hx
    by_cases hass : ∃ t, (x, t) ∈ assignments
    · obtain ⟨t, ht⟩ := hass
      left
      exact ⟨t, htids (x, t) ht, (mem_scenarioMemberUnits _ _ _ _).mpr ⟨ht, hx⟩⟩
    · right
      rw [mem_scenarioUnassigned]
      exact ⟨hx, fun ⟨t, ht, _⟩ => hass ⟨t, ht⟩⟩
  · intro x tid hmem
    have h := (mem_scenarioMemberUnits _ _ _ _).mp hmem
    refine ⟨h.2, ?_⟩
    rw [mem_scenarioUnassigned]
    intro ⟨_, hno⟩
    exact hno ⟨tid, h.1, h.2⟩
  · intro x hx
    exact ((mem_scenarioUnassigned _ _ _).mp hx).1
  · intro x t1 t2 h1 h2
    exact eq_snd_of_nodup_keys assignments hkeys x t1 t2
      ((mem_scenarioMemberUnits _ _ _ _).mp h1).1
      ((mem_scenarioMemberUnits _ _ _ _).mp h2).1
  · intro tid
    unfold scenarioMemberUnits
    rw [groupAssignments_members]
    exact ((List.filter_sublist _).map Prod.fst).nodup hkeys
  · unfold scenarioUnassigned
    exact (List.perm_insertionSort _ _).symm.nodup (hagg.filter _)

/-- **C2 witness**: `scenario_partition` applied to the in-range assignment
`{"CA": "T1"}` over the aggregate keys `{"CA", "NM"}` with `k = 1`, all three
hypotheses discharged by `decide`. -/
theorem scenario_partition_witness :
    ((([("CA", "T1")] : List (String × String)).map Prod.fst).Nodup ∧
      (["CA", "NM"] : List String).Nodup ∧
      (∀ p ∈ ([("CA", "T1")] : List (String × String)), p.2 ∈ territoryIds 1)) ∧
    ((∀ x ∈ (["CA", "NM"] : List String),
      (∃ tid ∈ territoryIds 1, x ∈ scenarioMemberUnits [("CA", "T1")] ["CA", "NM"] tid) ∨
        x ∈ scenarioUnassigned [("CA", "T1")] ["CA", "NM"]) ∧
    (∀ x : String, ∀ tid : String, x ∈ scenarioMemberUnits [("CA", "T1")] ["CA", "NM"] tid →
      x ∈ (["CA", "NM"] : List String) ∧ x ∉ scenarioUnassigned [("CA", "T1")] ["CA", "NM"]) ∧
    (∀ x ∈ scenarioUnassigned [("CA", "T1")] ["CA", "NM"], x ∈ (["CA", "NM"] : List String)) ∧
    (∀ x tid1 tid2 : String, x ∈ scenarioMemberUnits [("CA", "T1")] ["CA", "NM"] tid1 →
      x ∈ scenarioMemberUnits [("CA", "T1")] ["CA", "NM"] tid2 → tid1 = tid2) ∧
    (∀ tid : String, (scenarioMemberUnits [("CA", "T1")] ["CA", "NM"] tid).Nodup) ∧
    (scenarioUnassigned [("CA", "T1")] ["CA", "NM"]).Nodup) :=
  ⟨⟨by decide, by decide, by decide⟩,
    scenario_partition [("CA", "T1")] ["CA", "NM"] 1 (by decide) (by decide) (by decide)⟩

/-! ## Claim theorems: greedy optimizer -/

/-- **C3**: `primary_balanced` with `require_contiguity = True` fails with an
error carrying the affected unit ids whenever some unit cannot be admitted
anywhere without breaking contiguity — in particular, with `k = 1`, mutually
non-adjacent units `A` and `C`, and no locks, it returns the error `["C"]`
(the spec's existing test); an error can only arise with contiguity required
and always carries at least one unit id; and with
`require_contiguity = False` the same call never fails and returns an
assignment covering every unit. -/
theorem primary_balanced_spec :
    (∀ (uv : List (String × ℚ)) (k : ℕ) (locked : List (String × String))
        (adj : String → List String), 1 ≤ k →
      ∃ asg, primary_balanced uv k locked false adj = Except.ok asg) ∧
    (∀ (uv : List (String × ℚ)) (k : ℕ) (locked : List (String × String))
        (adj : String → List String) (asg : List (String × String)), 1 ≤ k →
      primary_balanced uv k locked false adj = Except.ok asg →
      ∀ p ∈ uv, (asg.lookup p.1).isSome = true) ∧
    (∀ (uv : List (String × ℚ)) (k : ℕ) (locked : List (String × String))
        (req : Bool) (adj : String → List String) (l : List String),
      primary_balanced uv k locked req adj = Except.error l → req = true ∧ l ≠ []) ∧
    primary_balanced [("A", 1), ("C", 1)] 1 [] true test_adjacency = Except.error ["C"] ∧
    primary_balanced [("A", 1), ("C", 1)] 1 [] false test_adjacency =
      Except.ok [("A", "T1"), ("C", "T1")] := by
  have herr : ∀ (uv : List (String × ℚ)) (k : ℕ) (locked : List (String × String))
      (req : Bool) (adj : String → List String) (l : List String),
      primary_balanced uv k locked req adj = Except.error l → req = true ∧ l ≠ [] := by
    intro uv k locked req adj l h
    unfold primary_balanced at h
    dsimp only at h
    split at h
    · rename_i hc
      injection h with h2
      exact ⟨hc.1, h2 ▸ hc.2⟩
    · cases h
  have hok : ∀ (uv : List (String × ℚ)) (k : ℕ) (locked : List (String × String))
      (adj : String → List String), 1 ≤ k →
      ∃ asg, primary_balanced uv k locked false adj = Except.ok asg := by
    intro uv k locked adj hk
    cases hres : primary_balanced uv k locked false adj with
    | error l => exact absurd (herr uv k locked false adj l hres).1 (by simp)
    | ok asg => exact ⟨asg, rfl⟩
  refine ⟨hok, ?_, herr, by rfl, by rfl⟩
  intro uv k locked adj asg hk h p hp
  unfold primary_balanced at h
  dsimp only at h
  rw [if_neg (by simp)] at h
  injection h with h2
  subst h2
  have htids := territoryIds_ne_nil k hk
  obtain ⟨hfail, hmono, hcov⟩ := pbGreedyFold_noReq uv (territoryIds k) adj htids
    (pbSorted uv k locked) (pbLockFold uv k locked)
  by_cases hx : ((pbLockFold uv k locked).assignments.lookup p.1).isSome = true
  · exact hmono p.1 hx
  · refine hcov p.1 ?_
    unfold pbSorted
    rw [(List.perm_insertionSort _ _).mem_iff]
    unfold pbRemaining
    rw [List.mem_filter]
    refine ⟨List.mem_map.mpr ⟨p, hp, rfl⟩, decide_eq_true ?_⟩
    cases hl : (pbLockFold uv k locked).assignments.lookup p.1
    · rfl
    · rw [hl] at hx
      exact absurd rfl hx

/-- **C3 witness**: `primary_balanced_spec` applied at the concrete test
inputs: the no-contiguity branch exists and covers both units, and the
`k ≥ 1` hypotheses are discharged by `decide`. -/
theorem primary_balanced_spec_witness :
    (1 ≤ 1 ∧
      ∃ asg, primary_balanced [("A", 1), ("C", 1)] 1 [] false test_adjacency
        = Except.ok asg) ∧
    (primary_balanced [("A", 1), ("C", 1)] 1 [] true test_adjacency = Except.error ["C"] →
      true = true ∧ (["C"] : List String) ≠ []) :=
  ⟨⟨by decide, primary_balanced_spec.1 [("A", 1), ("C", 1)] 1 [] test_adjacency (by decide)⟩,
    fun h => primary_balanced_spec.2.2.1 [("A", 1), ("C", 1)] 1 [] true test_adjacency ["C"] h⟩

/-! ## Claim theorems: ZIP → state mapping -/

/-- **C8**: for normalized rows (values already stripped/uppercased and
non-blank, as the claim's ZIPs and states are), `get_zip_to_state_mapping`
maps each ZIP that appears to a state it appears with, and that state is
lexicographically least among the ZIP's states — the state of the lexically
first `(zip, state)` pair in ascending key order, not the most frequent one.
A ZIP appearing with exactly one state therefore maps to that state. -/
theorem get_zip_to_state_mapping_spec (rows : List (String × String))
    (hnorm : ∀ p ∈ rows,
      pyStrip p.1 = p.1 ∧ pyUpper (pyStrip p.2) = p.2 ∧ p.1 ≠ "" ∧ p.2 ≠ "") :
    ∀ z s0, (z, s0) ∈ rows →
      ∃ s, (get_zip_to_state_mapping rows).lookup z = some s ∧
        (z, s) ∈ rows ∧ ∀ s2, (z, s2) ∈ rows → strLeB s s2 = true := by
  intro z s0 h0
  unfold get_zip_to_state_mapping
  dsimp only
  haveI htotal : IsTotal (String × String) (fun p q => pairLeB p q = true) :=
    ⟨pairLeB_total⟩
  haveI htrans : IsTrans (String × String) (fun p q => pairLeB p q = true) :=
    ⟨fun p q r => pairLeB_trans p q r⟩
  have hperm := List.perm_insertionSort
    (fun p q : String × String => pairLeB p q = true) rows.dedup
  have hmem : ∀ q : String × String,
      q ∈ List.insertionSort (fun p q => pairLeB p q = true) rows.dedup ↔ q ∈ rows := by
    intro q
    rw [hperm.mem_iff, List.mem_dedup]
  have hnormp : ∀ p ∈ List.insertionSort (fun p q => pairLeB p q = true) rows.dedup,
      pyStrip p.1 = p.1 ∧ pyUpper (pyStrip p.2) = p.2 ∧ p.1 ≠ "" ∧ p.2 ≠ "" :=
    fun p hp => hnorm p ((hmem p).mp hp)
  have hsorted : List.Pairwise (fun p q => pairLeB p q = true)
      (List.insertionSort (fun p q => pairLeB p q = true) rows.dedup) :=
    List.sorted_insertionSort _ _
  have hfs : (List.find? (fun p => p.1 == z)
      (List.insertionSort (fun p q => pairLeB p q = true) rows.dedup)).isSome = true := by
    rw [List.find?_isSome]
    exact ⟨(z, s0), (hmem _).mpr h0, beq_self_eq_true z⟩
  obtain ⟨p0, hp0⟩ := Option.isSome_iff_exists.mp hfs
  have hmin := find?_min_of_sorted z _ hsorted p0 hp0
  refine ⟨p0.2, ?_, ?_, ?_⟩
  · rw [zipFold_lookup z _ hnormp [], hp0]
    rfl
  · have hp0mem : p0 ∈ rows := (hmem p0).mp (List.mem_of_find?_eq_some hp0)
    rw [← hmin.1]
    exact hp0mem
  · intro s2 h2
    exact hmin.2 s2 ((hmem _).mpr h2)

/-- **C8 witness**: on the rows `{100: NY, NY, CA; 200: TX}` the ZIP `100`
spans two states, `NY` twice and `CA` once; the mapping picks `CA` — the
lexically first pair's state, not the most frequent — as both the theorem
instance and the direct evaluation show. -/
theorem get_zip_to_state_mapping_spec_witness :
    (get_zip_to_state_mapping
      [("100", "NY"), ("100", "NY"), ("100", "CA"), ("200", "TX")]).lookup "100"
        = some "CA" ∧
    (∃ s, (get_zip_to_state_mapping
        [("100", "NY"), ("100", "NY"), ("100", "CA"), ("200", "TX")]).lookup "100"
          = some s ∧
      ("100", s) ∈ ([("100", "NY"), ("100", "NY"), ("100", "CA"), ("200", "TX")] :
        List (String × String)) ∧
      ∀ s2, ("100", s2) ∈ ([("100", "NY"), ("100", "NY"), ("100", "CA"), ("200", "TX")] :
        List (String × String)) → strLeB s s2 = true) :=
  ⟨by decide,
    get_zip_to_state_mapping_spec
      [("100", "NY"), ("100", "NY"), ("100", "CA"), ("200", "TX")]
      (by decide) "100" "NY" (by decide)⟩
